import Mathlib

/-!
Shallow embedding of `src/covertree/covertree.py` (PyCoverTree, a cover
tree for nearest-neighbor search by T. Kollar / N. Geisweiller).

Modelling choices, all taken from the source:

* Python objects (`Node`) live in an arena: a `CoverTree` carries a list
  `store` of node records, and a node reference is its index in that
  list.  `Node.children` is the Python dict `level -> [child
  references]`, modelled as an association list; `Node.parent` is an
  optional reference.  The search algorithms never read `parent` (only
  `Node.addChild` writes it), so the arena is observationally faithful.
* Python float arithmetic is modelled by exact fractions `Qf` (numerator
  over a positive denominator).  All concrete scenarios in the spec use
  base 2 and dyadic data, on which Python floats are exact.
* `self.distance` is a caller-supplied function; it is passed explicitly
  to every operation (`dist` argument) instead of being stored, so that
  trees remain decidably comparable data.
* Python exceptions are modelled by `Except PyErr`.
  `PyErr.noneDeref` is `AttributeError` from dereferencing an absent
  root, `PyErr.indexError` is `IndexError` (from `random.choice([])` or
  `[][-1]`), `PyErr.valueError` is `ValueError` (`min([])`).
  `PyErr.fuelOut` is a modelling artifact: unbounded `while` loops take
  a fuel parameter and report `fuelOut` when it runs out (the Python
  code would simply keep running).
* `heapq.nsmallest(k, xs, key)` equals `sorted(xs, key=key)[:k]`
  (documented behavior): modelled by a stable insertion sort `ssort`
  followed by `take k`; a stable sort under a total preorder is unique,
  so any stable sort gives the Python result.
* `random.choice` is modelled by a caller-supplied selector
  `sel : List Nat -> Option Nat`; `SelValid` says it picks a member of
  any nonempty list and fails (IndexError) exactly on the empty list.
-/

/-- Exact fraction: value is `n / (d1 + 1)`.  The denominator is coded
as `d1 + 1` so that it is positive by construction; fractions are not
normalized (no gcd), keeping every operation kernel-reducible. -/
structure Qf where
  n : Int
  d1 : Nat
deriving DecidableEq, Repr

namespace Qf

/-- The (positive) denominator as an integer. -/
def den (a : Qf) : Int := (a.d1 : Int) + 1

def ofInt (z : Int) : Qf := ⟨z, 0⟩

/-- Python `a <= b` on floats, as exact comparison of fractions. -/
def qle (a b : Qf) : Bool := a.n * b.den ≤ b.n * a.den

/-- Python `a < b`. -/
def qlt (a b : Qf) : Bool := a.n * b.den < b.n * a.den

/-- Python `a == 0.0`: the value is zero iff the numerator is. -/
def isZero (a : Qf) : Bool := a.n = 0

def qadd (a b : Qf) : Qf :=
  ⟨a.n * b.den + b.n * a.den, a.d1 * b.d1 + a.d1 + b.d1⟩

def qneg (a : Qf) : Qf := ⟨-a.n, a.d1⟩

def qsub (a b : Qf) : Qf := qadd a (qneg b)

def qmul (a b : Qf) : Qf := ⟨a.n * b.n, a.d1 * b.d1 + a.d1 + b.d1⟩

def qabs (a : Qf) : Qf := ⟨|a.n|, a.d1⟩

def qinv (a : Qf) : Qf :=
  if 0 ≤ a.n then ⟨a.den, a.n.natAbs - 1⟩ else ⟨-a.den, a.n.natAbs - 1⟩

def qpowN (b : Qf) : Nat → Qf
  | 0 => ⟨1, 0⟩
  | k + 1 => qmul (qpowN b k) b

/-- Python `base ** i` for an integer exponent `i` (exact). -/
def qpow (b : Qf) : Int → Qf
  | .ofNat k => qpowN b k
  | .negSucc k => qinv (qpowN b (k + 1))

/-- Positivity of the value: the numerator is positive. -/
def Pos (a : Qf) : Prop := 0 < a.n

/-- Nonnegativity of the value. -/
def Nonneg (a : Qf) : Prop := 0 ≤ a.n

end Qf

open Qf

instance : Inhabited Qf := ⟨⟨0, 0⟩⟩

deriving instance DecidableEq for Except

/-- Python errors raised (or, for the last two, *claimed* by the spec to
be raised) by the cover tree code.  `emptyTree` and `invalidLevelRange`
are modelled from the spec's words (`EmptyTreeError`,
`InvalidLevelRangeError`); no such classes exist in the source, so no
operation ever produces them — they exist only so the spec's claims can
be stated and compared with what the code does. -/
inductive PyErr where
  | noneDeref
  | indexError
  | valueError
  | fuelOut
  | emptyTree
  | invalidLevelRange
deriving DecidableEq, Repr

/-- Python `class Node` (covertree.py line 21): payload point, dict
`level -> [children]`, optional parent back-reference.  References are
arena indices. -/
structure NodeRec (α : Type) where
  data : α
  children : List (Int × List Nat)
  parent : Option Nat
deriving DecidableEq, Repr

/-- Python `class CoverTree` (line 70): the node arena plus the fields set in
`__init__` (line 81).  `minlevel` starts equal to `maxlevel` and only
decreases.  `distance` is passed to each operation instead of stored. -/
structure CoverTree (α : Type) where
  store : List (NodeRec α)
  root : Option Nat
  maxlevel : Int
  minlevel : Int
  base : Qf
deriving DecidableEq, Repr

/-- A `CoverTree(distance, root=None, maxlevel, base)` with no root. -/
def emptyTree (α : Type) (maxlevel : Int) (base : Qf) : CoverTree α :=
  ⟨[], none, maxlevel, maxlevel, base⟩

/-- Association-list lookup for the Python dict `self.children`. -/
def alookup (l : Int) : List (Int × List Nat) → Option (List Nat)
  | [] => none
  | (l', v) :: rest => if l' = l then some v else alookup l rest

/-- Replace the value stored under an existing key. -/
def areplace (l : Int) (nv : List Nat) :
    List (Int × List Nat) → List (Int × List Nat)
  | [] => []
  | (l', v) :: rest =>
    if l' = l then (l', nv) :: rest else (l', v) :: areplace l nv rest

/-- The `Node.addChild` body (line 29), acting on one record: if `level` has
an entry and the child is not yet in it, append the child; if the level
is absent, create `[child]`.  (The `child.parent = self` assignment is
done by `addChild` on the arena, below.)  In Python, `child not in
self.children[level]` compares by object identity; here identity is the
arena index. -/
def addChildEntry (ch : List (Int × List Nat)) (cid : Nat) (level : Int) :
    List (Int × List Nat) :=
  match alookup level ch with
  | some lst => if cid ∈ lst then ch else areplace level (lst ++ [cid]) ch
  | none => ch ++ [(level, [cid])]

/-- Apply `f` to the record at index `i` (no-op when out of range, which
never happens for references held by Python code). -/
def modifyNode (s : List (NodeRec α)) (i : Nat) (f : NodeRec α → NodeRec α) :
    List (NodeRec α) :=
  match s.get? i with
  | some nr => s.set i (f nr)
  | none => s

/-- Method `Node.addChild(child, level)` (line 29) on the arena: update the
receiver's child dict, then unconditionally set `child.parent = self`
(line 36 runs on both paths). -/
def addChild (t : CoverTree α) (pid cid : Nat) (level : Int) : CoverTree α :=
  let s1 := modifyNode t.store pid
    (fun nr => { nr with children := addChildEntry nr.children cid level })
  let s2 := modifyNode s1 cid (fun nr => { nr with parent := some pid })
  { t with store := s2 }

/-- Method `Node.getOnlyChildren(level)` (line 49): children at `level`, or `[]`. -/
def getOnlyChildren (nr : NodeRec α) (level : Int) : List Nat :=
  (alookup level nr.children).getD []

/-- Look a node record up by reference (default record only for dangling
indices, which Python code never produces). -/
def nodeAt [Inhabited α] (t : CoverTree α) (i : Nat) : NodeRec α :=
  (t.store.get? i).getD ⟨default, [], none⟩

def dataAt [Inhabited α] (t : CoverTree α) (i : Nat) : α := (nodeAt t i).data

/-- All payload points held by nodes of the tree. -/
def storedPoints (t : CoverTree α) : List α := t.store.map (fun nr => nr.data)

/-- Stable insertion into a sorted list (ties keep the earlier element
first). -/
def insOrd (le : α → α → Bool) (x : α) : List α → List α
  | [] => [x]
  | y :: ys => if le y x then y :: insOrd le x ys else x :: y :: ys

/-- Stable insertion sort; under a total preorder its output coincides
with Python's stable `sorted`. -/
def ssort (le : α → α → Bool) : List α → List α
  | [] => []
  | x :: xs => insOrd le x (ssort le xs)

/-- Python `heapq.nsmallest(k, xs)` = `sorted(xs)[:k]` on distances. -/
def nsmallestD (k : Nat) (xs : List Qf) : List Qf := (ssort qle xs).take k

/-- Python `heapq.nsmallest(k, zip(Q, ds), lambda x: x[1])` (line 288):
`k` smallest (node, distance) pairs by distance, stable. -/
def nsmallestPairs (k : Nat) (xs : List (Nat × Qf)) : List (Nat × Qf) :=
  (ssort (fun a b => qle a.2 b.2) xs).take k

/-- Python `min(xs)` for a nonempty list: leftmost minimal element. -/
def pyMin : List Qf → Option Qf
  | [] => none
  | x :: xs => some (xs.foldl (fun m d => if qlt d m then d else m) x)

/-- Method `CoverTree.getChildrenDist(p, Qi, Qi_p_ds, i)` (line 274): append all
children-at-`i` of the cover set and their freshly computed distances. -/
def getChildrenDist [Inhabited α] (dist : α → α → Qf) (t : CoverTree α)
    (p : α) (Qi : List Nat) (Qi_p_ds : List Qf) (i : Int) :
    List Nat × List Qf :=
  let Q := (Qi.map (fun nid => getOnlyChildren (nodeAt t nid) i)).flatten
  (Qi ++ Q, Qi_p_ds ++ Q.map (fun q => dist p (dataAt t q)))

/-- Method `CoverTree.args_min(Q, Q_p_ds, k)` (line 287): payload points of the
`k` pairs with smallest distance, ascending. -/
def args_min [Inhabited α] (t : CoverTree α) (Q : List Nat) (Q_p_ds : List Qf)
    (k : Nat) : List α :=
  (nsmallestPairs k (Q.zip Q_p_ds)).map (fun qd => dataAt t qd.1)

/-- Validity of a `random.choice` model: it returns a member of any
nonempty list, and fails only on `[]` (Python raises IndexError there). -/
def SelValid (sel : List Nat → Option Nat) : Prop :=
  (∀ l x, sel l = some x → x ∈ l) ∧ (∀ l, l ≠ [] → (sel l).isSome)

/-- The deterministic selector "first candidate". -/
def selHead : List Nat → Option Nat := List.head?

/-- The attachment step shared by `insert_iter` (line 162) and
`knn_insert_iter` (line 235): create a fresh `Node(p)` (a fresh arena
index) and `addChild` it to the chosen parent at level `pi`. -/
def attachNew [Inhabited α] (t : CoverTree α) (par : Nat) (p : α)
    (pi : Int) : CoverTree α :=
  let cid := t.store.length
  let t1 := { t with store := t.store ++ [⟨p, [], none⟩] }
  addChild t1 par cid pi

/-- The `while True` loop of `CoverTree.insert_iter` (lines 149-171),
with fuel.  Returns the updated tree; `.ok t` unchanged means the point
was already present (distance 0 reached). -/
def insertLoop [Inhabited α] (dist : α → α → Qf) (sel : List Nat → Option Nat)
    (t : CoverTree α) (p : α) (Qi : List Nat) (Qi_p_ds : List Qf) (i : Int) :
    Nat → Except PyErr (CoverTree α)
  | 0 => .error .fuelOut
  | fuel + 1 =>
    let QQ := getChildrenDist dist t p Qi Qi_p_ds i
    match pyMin QQ.2 with
    | none => .error .valueError
    | some d_p_Q =>
      if isZero d_p_Q then .ok t
      else if qlt (qpow t.base i) d_p_Q then
        let pi := i + 1
        let possParents :=
          ((Qi.zip Qi_p_ds).filter (fun qd => qle qd.2 (qpow t.base pi))).map
            (fun qd => qd.1)
        match sel possParents with
        | none => .error .indexError
        | some par =>
          .ok { attachNew t par p pi with minlevel := min t.minlevel pi }
      else
        let zn := (QQ.1.zip QQ.2).filter (fun qd => qle qd.2 (qpow t.base i))
        insertLoop dist sel t p (zn.map (fun qd => qd.1))
          (zn.map (fun qd => qd.2)) (i - 1) fuel

namespace CoverTree

/-- Method `CoverTree.insert(p)` (line 97): make a root if the tree is empty,
else run the insertion descent from `maxlevel`.  (Namespaced like the
Python method, also avoiding the `Insert.insert` name.) -/
def insert [Inhabited α] (dist : α → α → Qf) (sel : List Nat → Option Nat)
    (t : CoverTree α) (p : α) (fuel : Nat) : Except PyErr (CoverTree α) :=
  match t.root with
  | none =>
    .ok { t with store := t.store ++ [⟨p, [], none⟩],
                 root := some t.store.length }
  | some r =>
    insertLoop dist sel t p [r] [dist p (dataAt t r)] t.maxlevel fuel

end CoverTree

/-- The list `reversed(xrange(minlevel, maxlevel + 1))`:
`[maxlevel, maxlevel - 1, ..., minlevel]`. -/
def levelsDesc (lo hi : Int) : List Int :=
  (List.range (hi + 1 - lo).toNat).map (fun k => hi - Int.ofNat k)

/-- One iteration of the `knn_iter` loop body (lines 184-194): expand,
take the `k`-th smallest distance (`[-1]` fails on an empty selection),
keep candidates within `d_p_Q + base**i`. -/
def knnStep [Inhabited α] (dist : α → α → Qf) (t : CoverTree α) (p : α)
    (k : Nat) (acc : Except PyErr (List Nat × List Qf)) (i : Int) :
    Except PyErr (List Nat × List Qf) :=
  match acc with
  | .error e => .error e
  | .ok (Qi, Qi_p_ds) =>
    let QQ := getChildrenDist dist t p Qi Qi_p_ds i
    match (nsmallestD k QQ.2).getLast? with
    | none => .error .indexError
    | some d_p_Q =>
      let zn := (QQ.1.zip QQ.2).filter
        (fun qd => qle qd.2 (qadd d_p_Q (qpow t.base i)))
      .ok (zn.map (fun qd => qd.1), zn.map (fun qd => qd.2))

/-- The full descent of `CoverTree.knn_iter` (lines 181-194): the final
cover set and distances after visiting `maxlevel` down to `minlevel`. -/
def knnDescent [Inhabited α] (dist : α → α → Qf) (t : CoverTree α) (p : α)
    (k : Nat) : Except PyErr (List Nat × List Qf) :=
  match t.root with
  | none => .error .noneDeref
  | some r =>
    (levelsDesc t.minlevel t.maxlevel).foldl (knnStep dist t p k)
      (.ok ([r], [dist p (dataAt t r)]))

/-- Method `CoverTree.knn(p, k)` = `knn_iter` (lines 123, 181-197). -/
def knn [Inhabited α] (dist : α → α → Qf) (t : CoverTree α) (p : α)
    (k : Nat) : Except PyErr (List α) :=
  (knnDescent dist t p k).map (fun QQ => args_min t QQ.1 QQ.2 k)

/-- The `while not found_parent or i >= self.minlevel` loop of
`CoverTree.knn_insert_iter` (lines 213-232) plus the post-loop
attachment (lines 234-238), with fuel.  `found` carries
`(pi, parent)` once the insertion spot is recorded. -/
def knnInsertLoop [Inhabited α] (dist : α → α → Qf)
    (sel : List Nat → Option Nat) (t : CoverTree α) (p : α) (k : Nat)
    (Qi : List Nat) (Qi_p_ds : List Qf) (i : Int)
    (found : Option (Int × Nat)) :
    Nat → Except PyErr (CoverTree α × List α)
  | 0 => .error .fuelOut
  | fuel + 1 =>
    match found, decide (i < t.minlevel) with
    | some (pi, par), true =>
      -- loop exit (`found_parent and i < minlevel`): lines 234-238
      let t3 := attachNew { t with minlevel := min t.minlevel pi } par p pi
      .ok (t3, args_min t3 Qi Qi_p_ds k)
    | fnd, _ =>
      -- loop body: lines 216-232
      let QQ := getChildrenDist dist t p Qi Qi_p_ds i
      match nsmallestD k QQ.2 with
      | [] => .error .indexError
      | d0 :: drest =>
        let d_p_Q_h := (d0 :: drest).getLast (by simp)
        let d_p_Q_l := d0
        let next : Except PyErr (Option (Int × Nat)) :=
          match fnd with
          | some f => .ok (some f)
          | none =>
            if qlt (qpow t.base i) d_p_Q_l then
              let pi := i + 1
              match sel (((Qi.zip Qi_p_ds).filter
                  (fun qd => qle qd.2 (qpow t.base pi))).map
                    (fun qd => qd.1)) with
              | none => .error .indexError
              | some par => .ok (some (pi, par))
            else .ok none
        match next with
        | .error e => .error e
        | .ok found' =>
          let zn := (QQ.1.zip QQ.2).filter
            (fun qd => qle qd.2 (qadd d_p_Q_h (qpow t.base i)))
          knnInsertLoop dist sel t p k (zn.map (fun qd => qd.1))
            (zn.map (fun qd => qd.2)) (i - 1) found' fuel

/-- Method `CoverTree.knn_insert(p, k)` (lines 112-113, 208-238). -/
def knn_insert [Inhabited α] (dist : α → α → Qf)
    (sel : List Nat → Option Nat) (t : CoverTree α) (p : α) (k : Nat)
    (fuel : Nat) : Except PyErr (CoverTree α × List α) :=
  match t.root with
  | none => .error .noneDeref
  | some r =>
    knnInsertLoop dist sel t p k [r] [dist p (dataAt t r)] t.maxlevel none
      fuel

/-- Method `CoverTree.find_rec(p, Qi, Qi_p_ds, i)` (lines 248-261), with fuel.
Note the source computes `min(Qi_p_ds)` *before* testing
`i < self.minlevel`, so an empty cover set raises ValueError even at
the bottom. -/
def findRec [Inhabited α] (dist : α → α → Qf) (t : CoverTree α) (p : α)
    (Qi : List Nat) (Qi_p_ds : List Qf) (i : Int) :
    Nat → Except PyErr (Bool × Option Int)
  | 0 => .error .fuelOut
  | fuel + 1 =>
    let QQ := getChildrenDist dist t p Qi Qi_p_ds i
    let zn := (QQ.1.zip QQ.2).filter (fun qd => qle qd.2 (qpow t.base i))
    match pyMin Qi_p_ds with
    | none => .error .valueError
    | some d_p_Qi =>
      if i < t.minlevel then .ok (false, none)
      else if isZero d_p_Qi then .ok (true, some i)
      else
        findRec dist t p (zn.map (fun qd => qd.1))
          (zn.map (fun qd => qd.2)) (i - 1) fuel

/-- Method `CoverTree.find(p)` (lines 132-135): dereferences `self.root.data`
(AttributeError when the tree is empty), then recurses from `maxlevel`. -/
def find [Inhabited α] (dist : α → α → Qf) (t : CoverTree α) (p : α)
    (fuel : Nat) : Except PyErr (Bool × Option Int) :=
  match t.root with
  | none => .error .noneDeref
  | some r =>
    findRec dist t p [r] [dist p (dataAt t r)] t.maxlevel fuel

/-- An operation in a mutation sequence: `insert(p)` or
`knn_insert(p, k)` with the given fuel. -/
inductive Op (α : Type) where
  | ins (p : α) (fuel : Nat)
  | knnIns (p : α) (k : Nat) (fuel : Nat)

def runOp [Inhabited α] (dist : α → α → Qf) (sel : List Nat → Option Nat)
    (t : CoverTree α) : Op α → Except PyErr (CoverTree α)
  | .ins p fuel => CoverTree.insert dist sel t p fuel
  | .knnIns p k fuel => (knn_insert dist sel t p k fuel).map (fun r => r.1)

/-- Run a sequence of mutating operations left to right. -/
def runOps [Inhabited α] (dist : α → α → Qf) (sel : List Nat → Option Nat) :
    List (Op α) → CoverTree α → Except PyErr (CoverTree α)
  | [], t => .ok t
  | op :: rest, t => (runOp dist sel t op).bind (runOps dist sel rest)

/-- Iteration counter mirroring `insertLoop`: how many levels the
`insert_iter` descent visits (one count per executed loop iteration,
including the final one that returns or fails). -/
def insertLoopVisits [Inhabited α] (dist : α → α → Qf) (t : CoverTree α)
    (p : α) (Qi : List Nat) (Qi_p_ds : List Qf) (i : Int) : Nat → Nat
  | 0 => 0
  | fuel + 1 =>
    let QQ := getChildrenDist dist t p Qi Qi_p_ds i
    match pyMin QQ.2 with
    | none => 1
    | some d_p_Q =>
      if isZero d_p_Q then 1
      else if qlt (qpow t.base i) d_p_Q then 1
      else
        let zn := (QQ.1.zip QQ.2).filter (fun qd => qle qd.2 (qpow t.base i))
        1 + insertLoopVisits dist t p (zn.map (fun qd => qd.1))
          (zn.map (fun qd => qd.2)) (i - 1) fuel

/-- Levels visited by `insert(p)` (0 when the tree is empty: the root is
created without any descent). -/
def insertVisits [Inhabited α] (dist : α → α → Qf) (t : CoverTree α)
    (p : α) (fuel : Nat) : Nat :=
  match t.root with
  | none => 0
  | some r =>
    insertLoopVisits dist t p [r] [dist p (dataAt t r)] t.maxlevel fuel

/-- Call counter mirroring `findRec`: how many levels the `find_rec`
recursion visits (each call expands children at its level, including
the final call below `minlevel`). -/
def findRecVisits [Inhabited α] (dist : α → α → Qf) (t : CoverTree α)
    (p : α) (Qi : List Nat) (Qi_p_ds : List Qf) (i : Int) : Nat → Nat
  | 0 => 0
  | fuel + 1 =>
    let QQ := getChildrenDist dist t p Qi Qi_p_ds i
    let zn := (QQ.1.zip QQ.2).filter (fun qd => qle qd.2 (qpow t.base i))
    match pyMin Qi_p_ds with
    | none => 1
    | some d_p_Qi =>
      if i < t.minlevel then 1
      else if isZero d_p_Qi then 1
      else
        1 + findRecVisits dist t p (zn.map (fun qd => qd.1))
          (zn.map (fun qd => qd.2)) (i - 1) fuel

/-- Levels visited by `find(p)`. -/
def findVisits [Inhabited α] (dist : α → α → Qf) (t : CoverTree α) (p : α)
    (fuel : Nat) : Nat :=
  match t.root with
  | none => 0
  | some r =>
    findRecVisits dist t p [r] [dist p (dataAt t r)] t.maxlevel fuel

/-- The covering invariant, decidable form: every child recorded at
level `l` of any node is within `base ** l` of that node (the claim's
"node attached at level `i` is within `base ** (i+1)` of its parent",
stated through the claim's own equivalence: a child in
`parent.children[l]` resides at level `l - 1`). -/
def covOK [Inhabited α] (dist : α → α → Qf) (t : CoverTree α) : Bool :=
  t.store.all fun nr => nr.children.all fun e => e.2.all fun c =>
    qle (dist (dataAt t c) nr.data) (qpow t.base e.1)

/-- Propositional form of `covOK`. -/
def CovP [Inhabited α] (dist : α → α → Qf) (t : CoverTree α) : Prop :=
  ∀ nr ∈ t.store, ∀ e ∈ nr.children, ∀ c ∈ e.2,
    qle (dist (dataAt t c) nr.data) (qpow t.base e.1) = true

/-- Arena well-formedness: all child references are in range. -/
def WfP (t : CoverTree α) : Prop :=
  ∀ nr ∈ t.store, ∀ e ∈ nr.children, ∀ c ∈ e.2, c < t.store.length

/-- The root reference is in range. -/
def RootP (t : CoverTree α) : Prop :=
  ∀ r, t.root = some r → r < t.store.length

/-- Combined structural invariant maintained by the mutating operations. -/
def TreeInv [Inhabited α] (dist : α → α → Qf) (t : CoverTree α) : Prop :=
  CovP dist t ∧ WfP t ∧ RootP t

/-- One-dimensional points with `distance = absolute difference`, as in
the spec's concrete scenario. -/
def ratDist (a b : Qf) : Qf := qabs (qsub a b)

/-- The spec's scenario tree parameters: `base=2`, `maxlevel=5`. -/
def demoEmpty : CoverTree Qf := emptyTree Qf 5 (ofInt 2)

/-- Only the root, point 0 (`insert(0)` on the scenario tree). -/
def tRoot0 : CoverTree Qf :=
  ⟨[⟨ofInt 0, [], none⟩], some 0, 5, 5, ofInt 2⟩

/-- After `insert(0); insert(1)`: node 1 attached to the root at level 0. -/
def t01 : CoverTree Qf :=
  ⟨[⟨ofInt 0, [(0, [1])], none⟩, ⟨ofInt 1, [], some 0⟩],
   some 0, 5, 0, ofInt 2⟩

/-- After `insert(0); insert(1); insert(2)`: node 2 attached to node 1
at level 0 (each parent choice was among a single candidate, so the
tree is the same for every `random.choice` outcome). -/
def t012 : CoverTree Qf :=
  ⟨[⟨ofInt 0, [(0, [1])], none⟩, ⟨ofInt 1, [(0, [2])], some 0⟩,
    ⟨ofInt 2, [], some 1⟩],
   some 0, 5, 0, ofInt 2⟩

/-- The query point `1.5` of the spec's scenario. -/
def q15 : Qf := ⟨3, 1⟩

/-- A root-only tree with `maxlevel = 2` (for the level-bound claim). -/
def tRoot0M2 : CoverTree Qf :=
  ⟨[⟨ofInt 0, [], none⟩], some 0, 2, 2, ofInt 2⟩

namespace Qf

theorem den_pos (a : Qf) : 0 < a.den := by
  simp only [den]; omega

theorem qle_refl (a : Qf) : qle a a = true := by
  simp [qle]

theorem qle_trans {a b c : Qf} (h1 : qle a b = true) (h2 : qle b c = true) :
    qle a c = true := by
  simp only [qle, decide_eq_true_eq] at h1 h2 ⊢
  have hb := b.den_pos
  have ha := a.den_pos
  have hc := c.den_pos
  nlinarith [mul_le_mul_of_nonneg_right h1 (le_of_lt hc),
    mul_le_mul_of_nonneg_right h2 (le_of_lt ha)]

theorem qle_total (a b : Qf) : qle a b = true ∨ qle b a = true := by
  simp only [qle, decide_eq_true_eq]
  omega

theorem qle_of_not_qle {a b : Qf} (h : ¬ qle a b = true) : qle b a = true := by
  rcases qle_total a b with h' | h'
  · exact absurd h' h
  · exact h'

theorem nonneg_qabs (a b : Qf) : Nonneg (qabs (qsub a b)) := by
  simp only [Nonneg, qabs, qsub, qadd, qneg]
  exact abs_nonneg _

theorem pos_qmul {a b : Qf} (ha : Pos a) (hb : Pos b) : Pos (qmul a b) := by
  simp only [Pos, qmul] at *
  exact mul_pos ha hb

theorem pos_qinv {a : Qf} (ha : Pos a) : Pos (qinv a) := by
  simp only [Pos, qinv] at *
  rw [if_pos (le_of_lt ha)]
  exact a.den_pos

theorem pos_qpowN {b : Qf} (hb : Pos b) (k : Nat) : Pos (qpowN b k) := by
  induction k with
  | zero => simp [Pos, qpowN]
  | succ k ih => exact pos_qmul ih hb

theorem pos_qpow {b : Qf} (hb : Pos b) (i : Int) : Pos (qpow b i) := by
  cases i with
  | ofNat k => exact pos_qpowN hb k
  | negSucc k => exact pos_qinv (pos_qpowN hb (k + 1))

/-- If `z` has value zero then `z ≤ w` holds exactly when `w` is
nonnegative. -/
theorem qle_zero_left {z w : Qf} (hz : isZero z = true) :
    qle z w = true ↔ Nonneg w := by
  simp only [isZero, decide_eq_true_eq] at hz
  simp only [qle, Nonneg, hz, zero_mul, decide_eq_true_eq]
  constructor
  · intro h
    by_contra hneg
    push_neg at hneg
    have := z.den_pos
    nlinarith
  · intro h
    have := z.den_pos
    positivity

/-- A positive value is not `≤` a zero value. -/
theorem not_qle_pos_zero {w z : Qf} (hw : Pos w) (hz : isZero z = true) :
    ¬ qle w z = true := by
  simp only [isZero, decide_eq_true_eq] at hz
  simp only [Pos] at hw
  simp only [qle, hz, zero_mul, decide_eq_true_eq, not_le]
  exact mul_pos hw z.den_pos

/-- Comparison `x > p` is false when `x` is zero-valued and `p` is positive. -/
theorem not_qlt_pos_zero {p z : Qf} (hp : Pos p) (hz : isZero z = true) :
    qlt p z = false := by
  simp only [isZero, decide_eq_true_eq] at hz
  simp only [Pos] at hp
  simp only [qlt, hz, zero_mul, decide_eq_false_iff_not, decide_eq_true_eq,
    not_lt]
  exact le_of_lt (mul_pos hp z.den_pos)

/-- Adding a nonnegative and a positive value stays positive, hence any
zero-valued element passes the cut `z ≤ dh + pw`. -/
theorem qle_zero_qadd {z dh pw : Qf} (hz : isZero z = true)
    (hdh : Nonneg dh) (hpw : Pos pw) : qle z (qadd dh pw) = true := by
  rw [qle_zero_left hz]
  simp only [Nonneg, Pos, qadd] at *
  have h1 := dh.den_pos
  have h2 := pw.den_pos
  nlinarith

/-- A nonnegative value that is `≤` a zero value is itself zero. -/
theorem isZero_of_qle_zero {w z : Qf} (hz : isZero z = true)
    (hw : Nonneg w) (h : qle w z = true) : isZero w = true := by
  simp only [isZero, decide_eq_true_eq] at hz ⊢
  simp only [qle, hz, zero_mul, decide_eq_true_eq] at h
  simp only [Nonneg] at hw
  have hd := z.den_pos
  nlinarith

/-- A value exceeding a positive value is positive (hence non-zero). -/
theorem pos_of_qlt_pos {pw d : Qf} (hpw : Pos pw)
    (h : qlt pw d = true) : Pos d := by
  simp only [qlt, decide_eq_true_eq] at h
  simp only [Pos] at hpw ⊢
  have h1 := pw.den_pos
  have h2 := d.den_pos
  nlinarith

theorem isZero_false_of_pos {d : Qf} (hd : Pos d) : isZero d = false := by
  simp only [Pos] at hd
  simp only [isZero, decide_eq_false_iff_not]
  omega

end Qf

theorem selHead_valid : SelValid selHead := by
  constructor
  · intro l x h
    cases l with
    | nil => simp [selHead] at h
    | cons y ys =>
      simp only [selHead, List.head?_cons, Option.some.injEq] at h
      rw [← h]
      exact List.mem_cons_self _ _
  · intro l h
    cases l with
    | nil => exact absurd rfl h
    | cons y ys => simp [selHead]

theorem insOrd_perm (le : α → α → Bool) (x : α) (l : List α) :
    (insOrd le x l).Perm (x :: l) := by
  induction l with
  | nil => simp [insOrd]
  | cons y ys ih =>
    simp only [insOrd]
    split
    · exact (ih.cons y).trans (List.Perm.swap x y ys)
    · exact List.Perm.refl _

theorem ssort_perm (le : α → α → Bool) (l : List α) :
    (ssort le l).Perm l := by
  induction l with
  | nil => simp [ssort]
  | cons x xs ih =>
    exact (insOrd_perm le x (ssort le xs)).trans (ih.cons x)

theorem insOrd_pairwise (le : α → α → Bool)
    (htrans : ∀ a b c, le a b = true → le b c = true → le a c = true)
    (htot : ∀ a b, le a b = true ∨ le b a = true) (x : α) {l : List α}
    (h : l.Pairwise (fun a b => le a b = true)) :
    (insOrd le x l).Pairwise (fun a b => le a b = true) := by
  induction l with
  | nil => simp [insOrd]
  | cons y ys ih =>
    rw [List.pairwise_cons] at h
    simp only [insOrd]
    split
    · rename_i hyx
      rw [List.pairwise_cons]
      constructor
      · intro a ha
        have hmem := (insOrd_perm le x ys).mem_iff.mp ha
        rcases List.mem_cons.mp hmem with h1 | h1
        · rw [h1]; exact hyx
        · exact h.1 a h1
      · exact ih h.2
    · rename_i hyx
      have hxy : le x y = true := by
        rcases htot x y with h1 | h1
        · exact h1
        · exact absurd h1 hyx
      rw [List.pairwise_cons]
      constructor
      · intro a ha
        rcases List.mem_cons.mp ha with h1 | h1
        · rw [h1]; exact hxy
        · exact htrans x y a hxy (h.1 a h1)
      · rw [List.pairwise_cons]
        exact h

theorem ssort_pairwise (le : α → α → Bool)
    (htrans : ∀ a b c, le a b = true → le b c = true → le a c = true)
    (htot : ∀ a b, le a b = true ∨ le b a = true) (l : List α) :
    (ssort le l).Pairwise (fun a b => le a b = true) := by
  induction l with
  | nil => simp [ssort]
  | cons x xs ih => exact insOrd_pairwise le htrans htot x ih

theorem ssort_length (le : α → α → Bool) (l : List α) :
    (ssort le l).length = l.length :=
  (ssort_perm le l).length_eq

theorem length_modifyNode (s : List (NodeRec α)) (i : Nat)
    (f : NodeRec α → NodeRec α) : (modifyNode s i f).length = s.length := by
  unfold modifyNode
  split
  · exact s.length_set i _
  · rfl

theorem get?_modifyNode_ne (s : List (NodeRec α)) (i : Nat)
    (f : NodeRec α → NodeRec α) {j : Nat} (h : i ≠ j) :
    (modifyNode s i f).get? j = s.get? j := by
  unfold modifyNode
  split
  · exact List.get?_set_ne _ _ h
  · rfl

theorem get?_modifyNode_self {s : List (NodeRec α)} {i : Nat}
    {f : NodeRec α → NodeRec α} {nr : NodeRec α} (h : s.get? i = some nr) :
    (modifyNode s i f).get? i = some (f nr) := by
  simp only [modifyNode, h]
  rw [List.get?_set_eq, h]
  rfl

theorem alookup_mem {ch : List (Int × List Nat)} {l : Int} {lst : List Nat}
    (h : alookup l ch = some lst) : (l, lst) ∈ ch := by
  induction ch with
  | nil => simp [alookup] at h
  | cons e rest ih =>
    obtain ⟨l', v⟩ := e
    simp only [alookup] at h
    split at h
    · rename_i heq
      cases h
      rw [heq]
      exact List.mem_cons_self _ _
    · exact List.mem_cons_of_mem _ (ih h)

theorem areplace_cases {ch : List (Int × List Nat)} {l : Int}
    {nv : List Nat} {e : Int × List Nat} (he : e ∈ areplace l nv ch) :
    e ∈ ch ∨ e = (l, nv) := by
  induction ch with
  | nil => simp [areplace] at he
  | cons x rest ih =>
    obtain ⟨l', v⟩ := x
    simp only [areplace] at he
    split at he
    · rename_i heq
      rcases List.mem_cons.mp he with h1 | h1
      · right; rw [h1, heq]
      · left; exact List.mem_cons_of_mem _ h1
    · rcases List.mem_cons.mp he with h1 | h1
      · left; rw [h1]; exact List.mem_cons_self _ _
      · rcases ih h1 with h2 | h2
        · left; exact List.mem_cons_of_mem _ h2
        · right; exact h2

theorem addChildEntry_cases {ch : List (Int × List Nat)} {cid : Nat}
    {l : Int} {e : Int × List Nat} (he : e ∈ addChildEntry ch cid l) :
    e ∈ ch ∨ (∃ lst, alookup l ch = some lst ∧ e = (l, lst ++ [cid])) ∨
      e = (l, [cid]) := by
  rcases hl : alookup l ch with _ | lst
  · simp only [addChildEntry, hl] at he
    rcases List.mem_append.mp he with h1 | h1
    · exact Or.inl h1
    · right; right
      rw [List.mem_singleton] at h1
      exact h1
  · simp only [addChildEntry, hl] at he
    split at he
    · exact Or.inl he
    · rcases areplace_cases he with h1 | h1
      · exact Or.inl h1
      · right; left; exact ⟨lst, rfl, h1⟩

theorem length_attachNew [Inhabited α] (t : CoverTree α) (par : Nat) (p : α)
    (pi : Int) : (attachNew t par p pi).store.length = t.store.length + 1 := by
  simp only [attachNew, addChild, length_modifyNode, List.length_append,
    List.length_singleton]

theorem root_attachNew [Inhabited α] (t : CoverTree α) (par : Nat) (p : α)
    (pi : Int) : (attachNew t par p pi).root = t.root := rfl

theorem base_attachNew [Inhabited α] (t : CoverTree α) (par : Nat) (p : α)
    (pi : Int) : (attachNew t par p pi).base = t.base := rfl

theorem get?_attachNew_old [Inhabited α] (t : CoverTree α) (par : Nat)
    (p : α) (pi : Int) {j : Nat} (hj : j < t.store.length) (hij : j ≠ par) :
    (attachNew t par p pi).store.get? j = t.store.get? j := by
  simp only [attachNew, addChild]
  rw [get?_modifyNode_ne _ _ _ (by omega : t.store.length ≠ j)]
  rw [get?_modifyNode_ne _ _ _ (fun h => hij h.symm)]
  exact List.get?_append hj

theorem get?_attachNew_par [Inhabited α] (t : CoverTree α) (par : Nat)
    (p : α) (pi : Int) {nr : NodeRec α} (h : t.store.get? par = some nr) :
    (attachNew t par p pi).store.get? par
      = some { nr with
          children := addChildEntry nr.children t.store.length pi } := by
  have hlt : par < t.store.length := by
    obtain ⟨hl, -⟩ := List.get?_eq_some.mp h
    exact hl
  simp only [attachNew, addChild]
  rw [get?_modifyNode_ne _ _ _ (by omega : t.store.length ≠ par)]
  apply get?_modifyNode_self
  rw [List.get?_append hlt]
  exact h

theorem get?_attachNew_new [Inhabited α] (t : CoverTree α) (par : Nat)
    (p : α) (pi : Int) (hne : par ≠ t.store.length) :
    (attachNew t par p pi).store.get? t.store.length
      = some ⟨p, [], some par⟩ := by
  simp only [attachNew, addChild]
  have h0 : (t.store ++ [(⟨p, [], none⟩ : NodeRec α)]).get? t.store.length
      = some ⟨p, [], none⟩ := List.get?_concat_length _ _
  have h1 : (modifyNode (t.store ++ [(⟨p, [], none⟩ : NodeRec α)]) par
      (fun nr => { nr with
        children := addChildEntry nr.children t.store.length pi })).get?
      t.store.length = some ⟨p, [], none⟩ := by
    rw [get?_modifyNode_ne _ _ _ hne]
    exact h0
  rw [get?_modifyNode_self h1]

theorem dataAt_attachNew_old [Inhabited α] (t : CoverTree α) (par : Nat)
    (p : α) (pi : Int) {j : Nat} (hj : j < t.store.length) :
    dataAt (attachNew t par p pi) j = dataAt t j := by
  by_cases hjp : j = par
  · subst hjp
    obtain ⟨nr, hnr⟩ : ∃ nr, t.store.get? j = some nr :=
      ⟨_, List.get?_eq_get hj⟩
    simp only [dataAt, nodeAt, get?_attachNew_par t j p pi hnr, hnr,
      Option.getD_some]
  · simp only [dataAt, nodeAt, get?_attachNew_old t par p pi hj hjp]

theorem dataAt_attachNew_new [Inhabited α] (t : CoverTree α) (par : Nat)
    (p : α) (pi : Int) (hne : par ≠ t.store.length) :
    dataAt (attachNew t par p pi) t.store.length = p := by
  simp only [dataAt, nodeAt, get?_attachNew_new t par p pi hne,
    Option.getD_some]

/-- Every (node, level entry, child) triple of the tree after an
attachment is either an old triple (under a node with the same payload)
or the freshly attached child at level `pi` under the chosen parent. -/
theorem attachNew_children_cases [Inhabited α] (t : CoverTree α) (par : Nat)
    (p : α) (pi : Int) (hpar : par < t.store.length) {nr' : NodeRec α}
    {e : Int × List Nat} {c : Nat}
    (hmem : nr' ∈ (attachNew t par p pi).store) (he : e ∈ nr'.children)
    (hc : c ∈ e.2) :
    (∃ nr ∈ t.store, nr.data = nr'.data ∧
      ∃ e0 ∈ nr.children, e0.1 = e.1 ∧ c ∈ e0.2) ∨
    (nr'.data = dataAt t par ∧ e.1 = pi ∧ c = t.store.length) := by
  have hne : par ≠ t.store.length := by omega
  obtain ⟨j, hj⟩ := List.mem_iff_get?.mp hmem
  by_cases hjn : j = t.store.length
  · subst hjn
    rw [get?_attachNew_new t par p pi hne] at hj
    cases hj
    simp at he
  · have hjlt : j < t.store.length := by
      obtain ⟨hl, -⟩ := List.get?_eq_some.mp hj
      rw [length_attachNew] at hl
      omega
    by_cases hjp : j = par
    · subst hjp
      obtain ⟨nr, hnr⟩ : ∃ nr, t.store.get? j = some nr :=
        ⟨_, List.get?_eq_get hjlt⟩
      rw [get?_attachNew_par t j p pi hnr] at hj
      have hjeq : nr' = { nr with
          children := addChildEntry nr.children t.store.length pi } := by
        cases hj; rfl
      subst hjeq
      simp only at he
      have hdata : nr.data = dataAt t j := by
        simp only [dataAt, nodeAt, hnr, Option.getD_some]
      rcases addChildEntry_cases he with h1 | h1 | h1
      · exact Or.inl ⟨nr, List.get?_mem hnr, rfl, e, h1, rfl, hc⟩
      · obtain ⟨lst, hl, he2⟩ := h1
        subst he2
        rcases List.mem_append.mp hc with hc1 | hc1
        · exact Or.inl ⟨nr, List.get?_mem hnr, rfl, (pi, lst),
            alookup_mem hl, rfl, hc1⟩
        · rw [List.mem_singleton] at hc1
          exact Or.inr ⟨hdata.symm ▸ rfl, rfl, hc1⟩
      · subst h1
        rw [List.mem_singleton] at hc
        exact Or.inr ⟨hdata.symm ▸ rfl, rfl, hc⟩
    · rw [get?_attachNew_old t par p pi hjlt hjp] at hj
      exact Or.inl ⟨nr', List.get?_mem hj, rfl, e, he, rfl, hc⟩

/-- Attaching a fresh node whose distance to the chosen parent is within
`base ** pi` preserves the structural invariant. -/
theorem TreeInv_attachNew [Inhabited α] (dist : α → α → Qf)
    (t : CoverTree α) (par : Nat) (p : α) (pi : Int)
    (hinv : TreeInv dist t) (hpar : par < t.store.length)
    (hd : qle (dist p (dataAt t par)) (qpow t.base pi) = true) :
    TreeInv dist (attachNew t par p pi) := by
  obtain ⟨hcov, hwf, hroot⟩ := hinv
  have hne : par ≠ t.store.length := by omega
  refine ⟨?_, ?_, ?_⟩
  · intro nr' hmem e he c hc
    rcases attachNew_children_cases t par p pi hpar hmem he hc
      with ⟨nr, hnr, hdata, e0, he0, he01, hc0⟩ | ⟨hdata, hepi, hcn⟩
    · have hclt : c < t.store.length := hwf nr hnr e0 he0 c hc0
      have hold := hcov nr hnr e0 he0 c hc0
      rw [base_attachNew, dataAt_attachNew_old t par p pi hclt, ← hdata,
        ← he01]
      exact hold
    · rw [base_attachNew, hcn, hepi, dataAt_attachNew_new t par p pi hne,
        hdata]
      exact hd
  · intro nr' hmem e he c hc
    rw [length_attachNew]
    rcases attachNew_children_cases t par p pi hpar hmem he hc
      with ⟨nr, hnr, hdata, e0, he0, he01, hc0⟩ | ⟨hdata, hepi, hcn⟩
    · have := hwf nr hnr e0 he0 c hc0
      omega
    · omega
  · intro r hr
    rw [length_attachNew]
    rw [root_attachNew] at hr
    have := hroot r hr
    omega

theorem zip_map_self (f : β → Qf) (l : List β) :
    l.zip (l.map f) = l.map (fun x => (x, f x)) := by
  induction l with
  | nil => rfl
  | cons x xs ih => simp [ih]

theorem mem_zip_map_self {f : β → Qf} {l : List β} {a : β} {b : Qf}
    (h : (a, b) ∈ l.zip (l.map f)) : a ∈ l ∧ b = f a := by
  rw [zip_map_self] at h
  rcases List.mem_map.mp h with ⟨x, hx, he⟩
  simp only [Prod.mk.injEq] at he
  obtain ⟨h1, h2⟩ := he
  subst h1
  exact ⟨hx, h2.symm⟩

theorem filter_zip_map_snd (f : β → Qf) (P : β × Qf → Bool) (l : List β) :
    ((l.zip (l.map f)).filter P).map (fun qd => qd.2)
      = (((l.zip (l.map f)).filter P).map (fun qd => qd.1)).map f := by
  rw [zip_map_self]
  induction l with
  | nil => rfl
  | cons x xs ih =>
    simp only [List.map_cons, List.filter_cons]
    split
    · simp only [List.map_cons]
      rw [ih]
    · exact ih

theorem mem_fst_filter_zip {l1 : List Nat} {l2 : List Qf}
    {P : Nat × Qf → Bool} {q : Nat}
    (h : q ∈ ((l1.zip l2).filter P).map (fun qd => qd.1)) : q ∈ l1 := by
  rcases List.mem_map.mp h with ⟨⟨a, b⟩, hab, he⟩
  rw [← he]
  exact (List.of_mem_zip (List.mem_filter.mp hab).1).1

/-- Expanded candidates are either old candidates or children at the
current level of an old candidate. -/
theorem mem_getChildrenDist_fst [Inhabited α] {dist : α → α → Qf}
    {t : CoverTree α} {p : α} {Qi : List Nat} {ds : List Qf} {i : Int}
    {q' : Nat} (h : q' ∈ (getChildrenDist dist t p Qi ds i).1) :
    q' ∈ Qi ∨ ∃ q ∈ Qi, q' ∈ getOnlyChildren (nodeAt t q) i := by
  simp only [getChildrenDist] at h
  rcases List.mem_append.mp h with h1 | h1
  · exact Or.inl h1
  · right
    rcases List.mem_flatten.mp h1 with ⟨lst, hlst, hq⟩
    rcases List.mem_map.mp hlst with ⟨q, hqQi, he⟩
    exact ⟨q, hqQi, he ▸ hq⟩

/-- When the incoming distances are those of the incoming candidates,
the expanded distances are those of the expanded candidates. -/
theorem getChildrenDist_map [Inhabited α] (dist : α → α → Qf)
    (t : CoverTree α) (p : α) (Qi : List Nat) (i : Int) :
    (getChildrenDist dist t p Qi
        (Qi.map (fun q => dist p (dataAt t q))) i).2
      = (getChildrenDist dist t p Qi
          (Qi.map (fun q => dist p (dataAt t q))) i).1.map
            (fun q => dist p (dataAt t q)) := by
  simp [getChildrenDist, List.map_append]

theorem getOnlyChildren_lt [Inhabited α] {t : CoverTree α} (hwf : WfP t)
    {q : Nat} (hq : q < t.store.length) {i : Int} {c : Nat}
    (hc : c ∈ getOnlyChildren (nodeAt t q) i) : c < t.store.length := by
  obtain ⟨nr, hnr⟩ : ∃ nr, t.store.get? q = some nr :=
    ⟨_, List.get?_eq_get hq⟩
  have hmem : nr ∈ t.store := List.get?_mem hnr
  have heq : nodeAt t q = nr := by
    simp only [nodeAt, hnr, Option.getD_some]
  rw [heq] at hc
  simp only [getOnlyChildren] at hc
  rcases hl : alookup i nr.children with _ | lst
  · rw [hl] at hc
    simp at hc
  · rw [hl] at hc
    exact hwf nr hmem (i, lst) (alookup_mem hl) c hc

theorem mem_getChildrenDist_lt [Inhabited α] {dist : α → α → Qf}
    {t : CoverTree α} {p : α} {Qi : List Nat} {ds : List Qf} {i : Int}
    (hwf : WfP t) (hQi : ∀ q ∈ Qi, q < t.store.length) :
    ∀ q' ∈ (getChildrenDist dist t p Qi ds i).1, q' < t.store.length := by
  intro q' h
  rcases mem_getChildrenDist_fst h with h1 | ⟨q, hq, h1⟩
  · exact hQi q' h1
  · exact getOnlyChildren_lt hwf (hQi q hq) h1

/-- The insertion descent preserves the structural invariant: whatever
tree an `insert_iter` run returns satisfies covering, well-formedness
and root validity if its input did. -/
theorem insertLoop_inv [Inhabited α] (dist : α → α → Qf)
    (sel : List Nat → Option Nat) (hsel : ∀ l x, sel l = some x → x ∈ l)
    (t : CoverTree α) (p : α) :
    ∀ (fuel : Nat) (Qi : List Nat) (i : Int) (t' : CoverTree α),
      TreeInv dist t →
      (∀ q ∈ Qi, q < t.store.length) →
      insertLoop dist sel t p Qi (Qi.map (fun q => dist p (dataAt t q))) i
        fuel = .ok t' →
      TreeInv dist t' := by
  intro fuel
  induction fuel with
  | zero =>
    intro Qi i t' _ _ h
    simp [insertLoop] at h
  | succ fuel ih =>
    intro Qi i t' hinv hQi hrun
    simp only [insertLoop] at hrun
    rcases hmin : pyMin (getChildrenDist dist t p Qi
        (Qi.map (fun q => dist p (dataAt t q))) i).2 with _ | d
    · simp only [hmin] at hrun
      simp at hrun
    · simp only [hmin] at hrun
      by_cases hz : isZero d = true
      · rw [if_pos hz] at hrun
        simp only [Except.ok.injEq] at hrun
        rw [← hrun]
        exact hinv
      · rw [if_neg hz] at hrun
        by_cases hgt : qlt (qpow t.base i) d = true
        · rw [if_pos hgt] at hrun
          rcases hse : sel (((Qi.zip (Qi.map (fun q =>
              dist p (dataAt t q)))).filter (fun qd =>
                qle qd.2 (qpow t.base (i + 1)))).map (fun qd => qd.1))
              with _ | par
          · simp only [hse] at hrun
            simp at hrun
          · simp only [hse] at hrun
            simp only [Except.ok.injEq] at hrun
            have hparmem := hsel _ par hse
            rcases List.mem_map.mp hparmem with ⟨⟨a, b⟩, hab, hae⟩
            obtain ⟨hzip, hP⟩ := List.mem_filter.mp hab
            obtain ⟨haQi, hbf⟩ := mem_zip_map_self hzip
            simp only at hae
            subst hae
            subst hbf
            rw [← hrun]
            exact TreeInv_attachNew dist t a p (i + 1) hinv (hQi a haQi) hP
        · rw [if_neg hgt] at hrun
          rw [getChildrenDist_map dist t p Qi i, filter_zip_map_snd]
            at hrun
          apply ih _ (i - 1) t' hinv _ hrun
          intro q hq
          have hq1 := mem_fst_filter_zip hq
          exact mem_getChildrenDist_lt (hinv.2.1) hQi q hq1

/-- Creating the root (first insertion into an empty tree, line 99)
preserves the structural invariant. -/
theorem TreeInv_newRoot [Inhabited α] (dist : α → α → Qf) (t : CoverTree α)
    (p : α) (hinv : TreeInv dist t) :
    TreeInv dist { t with store := t.store ++ [⟨p, [], none⟩],
                          root := some t.store.length } := by
  obtain ⟨hcov, hwf, hroot⟩ := hinv
  refine ⟨?_, ?_, ?_⟩
  · intro nr' hmem e he c hc
    rcases List.mem_append.mp hmem with h1 | h1
    · have hclt := hwf nr' h1 e he c hc
      have hget : (t.store ++ [(⟨p, [], none⟩ : NodeRec α)]).get? c
          = t.store.get? c := List.get?_append hclt
      simp only [dataAt, nodeAt, hget]
      exact hcov nr' h1 e he c hc
    · rw [List.mem_singleton] at h1
      subst h1
      simp at he
  · intro nr' hmem e he c hc
    simp only [List.length_append, List.length_singleton]
    rcases List.mem_append.mp hmem with h1 | h1
    · have := hwf nr' h1 e he c hc
      omega
    · rw [List.mem_singleton] at h1
      subst h1
      simp at he
  · intro r hr
    simp only [Option.some.injEq] at hr
    simp only [List.length_append, List.length_singleton]
    omega

/-- Operation `insert` preserves the structural invariant. -/
theorem insert_inv [Inhabited α] (dist : α → α → Qf)
    (sel : List Nat → Option Nat) (hsel : ∀ l x, sel l = some x → x ∈ l)
    (t : CoverTree α) (p : α) (fuel : Nat) (t' : CoverTree α)
    (hinv : TreeInv dist t)
    (hrun : CoverTree.insert dist sel t p fuel = .ok t') :
    TreeInv dist t' := by
  unfold CoverTree.insert at hrun
  rcases hr : t.root with _ | r
  · simp only [hr, Except.ok.injEq] at hrun
    rw [← hrun]
    exact TreeInv_newRoot dist t p hinv
  · simp only [hr] at hrun
    have hQi : ∀ q ∈ [r], q < t.store.length := by
      intro q hq
      rw [List.mem_singleton] at hq
      subst hq
      exact hinv.2.2 q hr
    have hds : [dist p (dataAt t r)]
        = [r].map (fun q => dist p (dataAt t q)) := rfl
    rw [hds] at hrun
    exact insertLoop_inv dist sel hsel t p fuel [r] t.maxlevel t' hinv hQi
      hrun

/-- The `knn_insert_iter` loop preserves the structural invariant; the
`found` register always holds a valid parent within `base ** pi`. -/
theorem knnInsertLoop_inv [Inhabited α] (dist : α → α → Qf)
    (sel : List Nat → Option Nat) (hsel : ∀ l x, sel l = some x → x ∈ l)
    (t : CoverTree α) (p : α) (k : Nat) :
    ∀ (fuel : Nat) (Qi : List Nat) (i : Int) (found : Option (Int × Nat))
      (t' : CoverTree α) (res : List α),
      TreeInv dist t →
      (∀ q ∈ Qi, q < t.store.length) →
      (∀ pi par, found = some (pi, par) → par < t.store.length ∧
        qle (dist p (dataAt t par)) (qpow t.base pi) = true) →
      knnInsertLoop dist sel t p k Qi
        (Qi.map (fun q => dist p (dataAt t q))) i found fuel
        = .ok (t', res) →
      TreeInv dist t' := by
  intro fuel
  induction fuel with
  | zero =>
    intro Qi i found t' res _ _ _ h
    simp [knnInsertLoop] at h
  | succ fuel ih =>
    intro Qi i found t' res hinv hQi hfound hrun
    simp only [knnInsertLoop] at hrun
    rcases found with _ | ⟨pi, par⟩
    · -- no parent recorded yet: always the body arm
      rcases hns : nsmallestD k (getChildrenDist dist t p Qi
          (Qi.map (fun q => dist p (dataAt t q))) i).2 with _ | ⟨d0, drest⟩
      · simp only [hns] at hrun
        simp at hrun
      · simp only [hns] at hrun
        by_cases hgt : qlt (qpow t.base i) d0 = true
        · rw [if_pos hgt] at hrun
          rcases hse : sel (((Qi.zip (Qi.map (fun q =>
              dist p (dataAt t q)))).filter (fun qd =>
                qle qd.2 (qpow t.base (i + 1)))).map (fun qd => qd.1))
              with _ | par'
          · simp only [hse] at hrun
            simp at hrun
          · simp only [hse] at hrun
            rw [getChildrenDist_map dist t p Qi i,
              filter_zip_map_snd] at hrun
            apply ih _ (i - 1) (some (i + 1, par')) t' res hinv _ _ hrun
            · intro q hq
              exact mem_getChildrenDist_lt (hinv.2.1) hQi q
                (mem_fst_filter_zip hq)
            · intro pi2 par2 hf
              simp only [Option.some.injEq, Prod.mk.injEq] at hf
              obtain ⟨h1, h2⟩ := hf
              subst h1
              subst h2
              have hparmem := hsel _ par' hse
              rcases List.mem_map.mp hparmem with ⟨⟨a, b⟩, hab, hae⟩
              obtain ⟨hzip, hP⟩ := List.mem_filter.mp hab
              obtain ⟨haQi, hbf⟩ := mem_zip_map_self hzip
              simp only at hae
              subst hae
              subst hbf
              exact ⟨hQi a haQi, hP⟩
        · rw [if_neg hgt] at hrun
          rw [getChildrenDist_map dist t p Qi i,
            filter_zip_map_snd] at hrun
          apply ih _ (i - 1) none t' res hinv _ _ hrun
          · intro q hq
            exact mem_getChildrenDist_lt (hinv.2.1) hQi q
              (mem_fst_filter_zip hq)
          · intro pi2 par2 hf
            simp at hf
    · -- a parent is recorded
      by_cases hlt : i < t.minlevel
      · -- loop exit: attach and return
        have hdec : decide (i < t.minlevel) = true := decide_eq_true hlt
        simp only [hdec] at hrun
        simp only [Except.ok.injEq, Prod.mk.injEq] at hrun
        obtain ⟨h1, -⟩ := hrun
        rw [← h1]
        obtain ⟨hpar, hd⟩ := hfound pi par rfl
        exact TreeInv_attachNew dist { t with minlevel := min t.minlevel pi }
          par p pi hinv hpar hd
      · -- condition `i >= minlevel`: run the body with the record kept
        have hdec : decide (i < t.minlevel) = false := decide_eq_false hlt
        simp only [hdec] at hrun
        rcases hns : nsmallestD k (getChildrenDist dist t p Qi
            (Qi.map (fun q => dist p (dataAt t q))) i).2
            with _ | ⟨d0, drest⟩
        · simp only [hns] at hrun
          simp at hrun
        · simp only [hns] at hrun
          rw [getChildrenDist_map dist t p Qi i,
            filter_zip_map_snd] at hrun
          apply ih _ (i - 1) (some (pi, par)) t' res hinv _ hfound hrun
          intro q hq
          exact mem_getChildrenDist_lt (hinv.2.1) hQi q
            (mem_fst_filter_zip hq)

/-- Operation `knn_insert` preserves the structural invariant. -/
theorem knn_insert_inv [Inhabited α] (dist : α → α → Qf)
    (sel : List Nat → Option Nat) (hsel : ∀ l x, sel l = some x → x ∈ l)
    (t : CoverTree α) (p : α) (k fuel : Nat) (t' : CoverTree α)
    (res : List α) (hinv : TreeInv dist t)
    (hrun : knn_insert dist sel t p k fuel = .ok (t', res)) :
    TreeInv dist t' := by
  unfold knn_insert at hrun
  rcases hr : t.root with _ | r
  · simp [hr] at hrun
  · simp only [hr] at hrun
    have hQi : ∀ q ∈ [r], q < t.store.length := by
      intro q hq
      rw [List.mem_singleton] at hq
      subst hq
      exact hinv.2.2 q hr
    have hds : [dist p (dataAt t r)]
        = [r].map (fun q => dist p (dataAt t q)) := rfl
    rw [hds] at hrun
    apply knnInsertLoop_inv dist sel hsel t p k fuel [r] t.maxlevel none t'
      res hinv hQi _ hrun
    intro pi par hf
    simp at hf

/-- Any single mutating operation preserves the structural invariant. -/
theorem runOp_inv [Inhabited α] (dist : α → α → Qf)
    (sel : List Nat → Option Nat) (hsel : ∀ l x, sel l = some x → x ∈ l)
    (t : CoverTree α) (op : Op α) (t' : CoverTree α)
    (hinv : TreeInv dist t) (hrun : runOp dist sel t op = .ok t') :
    TreeInv dist t' := by
  cases op with
  | ins p fuel => exact insert_inv dist sel hsel t p fuel t' hinv hrun
  | knnIns p k fuel =>
    simp only [runOp] at hrun
    rcases hk : knn_insert dist sel t p k fuel with e | ⟨ta, res⟩
    · rw [hk] at hrun
      simp [Except.map] at hrun
    · rw [hk] at hrun
      simp only [Except.map, Except.ok.injEq] at hrun
      rw [← hrun]
      exact knn_insert_inv dist sel hsel t p k fuel ta res hinv hk

/-- A whole sequence of mutating operations preserves the invariant. -/
theorem runOps_inv [Inhabited α] (dist : α → α → Qf)
    (sel : List Nat → Option Nat) (hsel : ∀ l x, sel l = some x → x ∈ l)
    (ops : List (Op α)) :
    ∀ (t t' : CoverTree α), TreeInv dist t →
      runOps dist sel ops t = .ok t' → TreeInv dist t' := by
  induction ops with
  | nil =>
    intro t t' hinv hrun
    simp only [runOps, Except.ok.injEq] at hrun
    rw [← hrun]
    exact hinv
  | cons op rest ih =>
    intro t t' hinv hrun
    simp only [runOps] at hrun
    rcases ho : runOp dist sel t op with e | ta
    · rw [ho] at hrun
      simp [Except.bind] at hrun
    · rw [ho] at hrun
      simp only [Except.bind] at hrun
      exact ih ta t' (runOp_inv dist sel hsel t op ta hinv ho) hrun

theorem TreeInv_emptyTree [Inhabited α] (dist : α → α → Qf) (maxlevel : Int)
    (base : Qf) : TreeInv dist (emptyTree α maxlevel base) := by
  refine ⟨?_, ?_, ?_⟩
  · intro nr hmem
    simp [emptyTree] at hmem
  · intro nr hmem
    simp [emptyTree] at hmem
  · intro r hr
    simp [emptyTree] at hr

theorem covOK_iff [Inhabited α] (dist : α → α → Qf) (t : CoverTree α) :
    covOK dist t = true ↔ CovP dist t := by
  simp only [covOK, CovP, List.all_eq_true]

/-- C4: after every sequence of (successful) `insert` and `knn_insert`
operations on a tree built from empty, every non-root node attached at
level `i` satisfies `distance(n.data, n.parent.data) <= base ** (i+1)`;
equivalently (the form checked by `covOK`, matching the claim's own
equivalence), every child recorded in `parent.children[l]` — a node
residing at level `l - 1` — is within `base ** l` of its parent.  This
holds for every `random.choice` behavior (any valid selector). -/
theorem c4_covering_invariant [Inhabited α] (dist : α → α → Qf)
    (sel : List Nat → Option Nat) (hsel : SelValid sel) (ops : List (Op α))
    (maxlevel : Int) (base : Qf) (t : CoverTree α)
    (hrun : runOps dist sel ops (emptyTree α maxlevel base) = .ok t) :
    covOK dist t = true := by
  rw [covOK_iff]
  exact (runOps_inv dist sel hsel.1 ops (emptyTree α maxlevel base) t
    (TreeInv_emptyTree dist maxlevel base) hrun).1

/-- Witness for C4: the scenario tree obtained by `insert(0); insert(1);
knn_insert(2, 1)` satisfies the covering check. -/
theorem c4_covering_invariant_witness : covOK ratDist t012 = true :=
  c4_covering_invariant ratDist selHead selHead_valid
    [.ins (ofInt 0) 40, .ins (ofInt 1) 40, .knnIns (ofInt 2) 1 40]
    5 (ofInt 2) t012 (by decide)

/-- C1 (code bug): on the tree built by `insert(0); insert(1);
insert(2)` (base 2, maxlevel 5, each parent choice forced), the stored
point 2 is at distance 0 from the query 2, yet `knn(2, 1)` returns
`[1]` (distance 1) — not the same set as a brute-force scan.  Node 2
lives in `children[0]` of node 1, which itself only enters the cover
set at level 0, so node 2's expansion would happen at level -1, below
`minlevel`; the descent never reaches it. -/
theorem c1_knn_misses_stored_point :
    runOps ratDist selHead
      [.ins (ofInt 0) 40, .ins (ofInt 1) 40, .ins (ofInt 2) 40] demoEmpty
      = .ok t012 ∧
    storedPoints t012 = [ofInt 0, ofInt 1, ofInt 2] ∧
    isZero (ratDist (ofInt 2) (ofInt 2)) = true ∧
    knn ratDist t012 (ofInt 2) 1 = .ok [ofInt 1] := by
  refine ⟨by decide, by decide, by decide, by decide⟩

/-- C2 (code bug): point 1 was inserted into the tree (attached at level
0 = minlevel), but `find(1)` reports not-found: the zero distance is
only seen by the recursive call at level -1, where the
`i < minlevel` test fires before the zero test (covertree.py lines
256-259). -/
theorem c2_find_misses_inserted_point :
    runOps ratDist selHead
      [.ins (ofInt 0) 40, .ins (ofInt 1) 40] demoEmpty = .ok t01 ∧
    ofInt 1 ∈ storedPoints t01 ∧
    find ratDist t01 (ofInt 1) 40 = .ok (false, none) := by
  refine ⟨by decide, by decide, by decide⟩

/-- C7 (code bug): the spec's concrete scenario diverges at every step:
`insert(100)` raises IndexError (100 > 2^5, `random.choice([])`), and
on the tree holding 0, 1, 2: `knn(1.5, 2)` returns `{1, 0}` instead of
`{1, 2}`, while `find(100)` and `find(50)` raise ValueError (`min([])`
after the cover set is pruned empty) instead of reporting found /
not-found. -/
theorem c7_scenario_diverges :
    runOps ratDist selHead
      [.ins (ofInt 0) 40, .ins (ofInt 1) 40, .ins (ofInt 2) 40,
       .ins (ofInt 100) 40] demoEmpty = .error .indexError ∧
    runOps ratDist selHead
      [.ins (ofInt 0) 40, .ins (ofInt 1) 40, .ins (ofInt 2) 40] demoEmpty
      = .ok t012 ∧
    knn ratDist t012 q15 2 = .ok [ofInt 1, ofInt 0] ∧
    find ratDist t012 (ofInt 100) 40 = .error .valueError ∧
    find ratDist t012 (ofInt 50) 40 = .error .valueError := by
  refine ⟨by decide, by decide, by decide, by decide, by decide⟩

/-- Counterexample for C5: on an empty tree, `knn`, `knn_insert` and
`find` all fail by dereferencing the absent root (`self.root.data`,
an AttributeError) — not by raising the `EmptyTreeError` the claim
describes, which does not exist in the source. -/
theorem c5_counterexample :
    knn ratDist (emptyTree Qf 10 (ofInt 2)) (ofInt 0) 1
      = .error .noneDeref ∧
    knn_insert ratDist selHead (emptyTree Qf 10 (ofInt 2)) (ofInt 0) 1 40
      = .error .noneDeref ∧
    find ratDist (emptyTree Qf 10 (ofInt 2)) (ofInt 0) 40
      = .error .noneDeref ∧
    PyErr.noneDeref ≠ PyErr.emptyTree := by
  refine ⟨by decide, by decide, by decide, by decide⟩

/-- C5 as amended: for every empty tree (root absent), `knn`,
`knn_insert` and `find` fail with the undefined dereference of the
absent root; no explicit invalid-state error is raised. -/
theorem c5_empty_tree_behavior [Inhabited α] (dist : α → α → Qf)
    (sel : List Nat → Option Nat) (t : CoverTree α) (p : α) (k fuel : Nat)
    (h : t.root = none) :
    knn dist t p k = .error .noneDeref ∧
    knn_insert dist sel t p k fuel = .error .noneDeref ∧
    find dist t p fuel = .error .noneDeref := by
  refine ⟨?_, ?_, ?_⟩
  · simp [knn, knnDescent, h, Except.map]
  · simp [knn_insert, h]
  · simp [find, h]

/-- Witness for C5's amended statement at a concrete empty tree. -/
theorem c5_empty_tree_behavior_witness :
    knn ratDist (emptyTree Qf 7 (ofInt 2)) (ofInt 3) 2
      = .error .noneDeref ∧
    knn_insert ratDist selHead (emptyTree Qf 7 (ofInt 2)) (ofInt 3) 2 30
      = .error .noneDeref ∧
    find ratDist (emptyTree Qf 7 (ofInt 2)) (ofInt 3) 30
      = .error .noneDeref :=
  c5_empty_tree_behavior ratDist selHead (emptyTree Qf 7 (ofInt 2))
    (ofInt 3) 2 30 (by decide)

/-- Counterexample for C6: with root 0, `base=2`, `maxlevel=5`,
`insert(100)` (distance 100 > 2^6) fails with IndexError from
`random.choice([])`, and `insert(50)` (32 < 50 <= 64) silently
attaches the point at level `maxlevel + 1 = 6`, a level no traversal
(they all start at `maxlevel`) ever expands.  No
`InvalidLevelRangeError` is raised — the source has no such error. -/
theorem c6_counterexample :
    CoverTree.insert ratDist selHead tRoot0 (ofInt 100) 40
      = .error .indexError ∧
    PyErr.indexError ≠ PyErr.invalidLevelRange ∧
    (CoverTree.insert ratDist selHead tRoot0 (ofInt 50) 40).map
      (fun t => getOnlyChildren (nodeAt t 0) 6) = .ok [1] ∧
    tRoot0.maxlevel = 5 := by
  refine ⟨by decide, by decide, by decide, by decide⟩

/-- C6 as amended: inserting a point `p` whose distance to the root
exceeds `base ** maxlevel` into a tree whose root has no children at
`maxlevel` (e.g. any fresh single-point tree) never raises a
configuration error: when the distance is still within
`base ** (maxlevel + 1)` the point is silently attached at level
`maxlevel + 1` (invisible to the traversals, which start at
`maxlevel`); when it exceeds that too, the call fails with IndexError
from choosing out of an empty candidate list. -/
theorem c6_overspread_behavior [Inhabited α] (dist : α → α → Qf)
    (sel : List Nat → Option Nat) (hsel : SelValid sel) (t : CoverTree α)
    (r : Nat) (p : α) (fuel : Nat) (hroot : t.root = some r)
    (hb : Pos t.base)
    (hch : getOnlyChildren (nodeAt t r) t.maxlevel = [])
    (hfar : qlt (qpow t.base t.maxlevel) (dist p (dataAt t r)) = true) :
    CoverTree.insert dist sel t p (fuel + 1) =
      if qle (dist p (dataAt t r)) (qpow t.base (t.maxlevel + 1))
      then .ok { attachNew t r p (t.maxlevel + 1) with
                   minlevel := min t.minlevel (t.maxlevel + 1) }
      else .error .indexError := by
  unfold CoverTree.insert
  simp only [hroot]
  simp only [insertLoop]
  have hQQ : getChildrenDist dist t p [r] [dist p (dataAt t r)] t.maxlevel
      = ([r], [dist p (dataAt t r)]) := by
    simp [getChildrenDist, hch]
  rw [hQQ]
  have hmin : pyMin [dist p (dataAt t r)] = some (dist p (dataAt t r)) :=
    rfl
  simp only [hmin]
  have hpos : Pos (dist p (dataAt t r)) :=
    pos_of_qlt_pos (pos_qpow hb t.maxlevel) hfar
  have hz : isZero (dist p (dataAt t r)) = false := isZero_false_of_pos hpos
  rw [if_neg (by rw [hz]; exact Bool.false_ne_true)]
  rw [if_pos hfar]
  by_cases hle : qle (dist p (dataAt t r)) (qpow t.base (t.maxlevel + 1))
      = true
  · have hfilter : (([r].zip [dist p (dataAt t r)]).filter
        (fun qd => qle qd.2 (qpow t.base (t.maxlevel + 1)))).map
          (fun qd => qd.1) = [r] := by
      simp [List.filter, hle]
    rw [hfilter]
    have hsome : sel [r] = some r := by
      have h1 := hsel.2 [r] (by simp)
      rcases hx : sel [r] with _ | x
      · rw [hx] at h1
        simp at h1
      · have := hsel.1 [r] x hx
        rw [List.mem_singleton] at this
        rw [← this]
    rw [hsome, if_pos hle]
  · have hfilter : (([r].zip [dist p (dataAt t r)]).filter
        (fun qd => qle qd.2 (qpow t.base (t.maxlevel + 1)))).map
          (fun qd => qd.1) = [] := by
      simp [List.filter, hle]
    rw [hfilter]
    have hnone : sel [] = none := by
      rcases hx : sel [] with _ | x
      · rfl
      · have := hsel.1 [] x hx
        simp at this
    rw [hnone, if_neg hle]

/-- Witness for C6's amended statement: `insert(50)` into the fresh
root-0 tree takes the silent-attach branch. -/
theorem c6_overspread_behavior_witness :
    CoverTree.insert ratDist selHead tRoot0 (ofInt 50) 40 =
      if qle (ratDist (ofInt 50) (dataAt tRoot0 0))
          (qpow tRoot0.base (tRoot0.maxlevel + 1))
      then .ok { attachNew tRoot0 0 (ofInt 50) (tRoot0.maxlevel + 1) with
                   minlevel := min tRoot0.minlevel (tRoot0.maxlevel + 1) }
      else .error .indexError :=
  c6_overspread_behavior ratDist selHead selHead_valid tRoot0 0 (ofInt 50)
    39 (by decide) (by simp only [Qf.Pos]; decide) (by decide) (by decide)

/-- C10: `Node.addChild(child, level)` always reassigns `child.parent`
to the receiver — even when the child is already present in the
receiver's list at that level, where only the duplicate append is
skipped — and it touches no other node's child lists, so a node
already attached elsewhere is silently re-parented while remaining in
its former parent's child list. -/
theorem c10_addChild_reparents [Inhabited α] (t : CoverTree α)
    (pid cid : Nat) (l : Int) (hcid : cid < t.store.length)
    (hne : pid ≠ cid) :
    (nodeAt (addChild t pid cid l) cid).parent = some pid ∧
    (nodeAt (addChild t pid cid l) cid).children
      = (nodeAt t cid).children ∧
    (∀ o : Nat, o ≠ pid → o ≠ cid →
      nodeAt (addChild t pid cid l) o = nodeAt t o) ∧
    (cid ∈ getOnlyChildren (nodeAt t pid) l →
      (nodeAt (addChild t pid cid l) pid).children
        = (nodeAt t pid).children) := by
  obtain ⟨nr, hnr⟩ : ∃ nr, t.store.get? cid = some nr :=
    ⟨_, List.get?_eq_get hcid⟩
  have hinner : (modifyNode t.store pid (fun nr => { nr with
      children := addChildEntry nr.children cid l })).get? cid
      = t.store.get? cid := get?_modifyNode_ne _ _ _ hne
  refine ⟨?_, ?_, ?_, ?_⟩
  · simp only [addChild, nodeAt]
    rw [get?_modifyNode_self (by rw [hinner]; exact hnr)]
    rfl
  · simp only [addChild, nodeAt]
    rw [get?_modifyNode_self (by rw [hinner]; exact hnr), hnr]
    rfl
  · intro o ho1 ho2
    simp only [addChild, nodeAt]
    rw [get?_modifyNode_ne _ _ _ (fun h => ho2 h.symm),
      get?_modifyNode_ne _ _ _ (fun h => ho1 h.symm)]
  · intro hmem
    simp only [addChild, nodeAt]
    rw [get?_modifyNode_ne _ _ _ (Ne.symm hne)]
    rcases hp : t.store.get? pid with _ | nrp
    · simp only [modifyNode, hp]
    · rw [get?_modifyNode_self hp]
      have hentry : addChildEntry nrp.children cid l = nrp.children := by
        have hnp : nodeAt t pid = nrp := by
          simp only [nodeAt, hp, Option.getD_some]
        rw [hnp] at hmem
        simp only [getOnlyChildren] at hmem
        rcases hl : alookup l nrp.children with _ | lst
        · rw [hl] at hmem
          simp at hmem
        · rw [hl] at hmem
          simp only [Option.getD_some] at hmem
          simp [addChildEntry, hl, hmem]
      simp [hentry]

/-- Witness for C10: re-attaching node 2 (currently a child of node 1)
under the root at level 5 re-parents it and leaves node 1's child list
untouched. -/
theorem c10_addChild_reparents_witness :
    (nodeAt (addChild t012 0 2 5) 2).parent = some 0 ∧
    (nodeAt (addChild t012 0 2 5) 2).children = (nodeAt t012 2).children ∧
    (∀ o : Nat, o ≠ 0 → o ≠ 2 →
      nodeAt (addChild t012 0 2 5) o = nodeAt t012 o) ∧
    (2 ∈ getOnlyChildren (nodeAt t012 0) 5 →
      (nodeAt (addChild t012 0 2 5) 0).children
        = (nodeAt t012 0).children) :=
  c10_addChild_reparents t012 0 2 5 (by decide) (by decide)

/-- Counterexample for C8: on a fresh tree with root 0 and
`maxlevel = 2` (so `minlevel = 2`), `insert(1)` succeeds but its
descent visits 4 levels (2, 1, 0, -1), exceeding the claimed bound
`maxlevel - minlevel + 1 = 1`: `insert_iter` is a `while True` loop
with no `minlevel` stop. -/
theorem c8_insert_exceeds_level_bound :
    runOps ratDist selHead [.ins (ofInt 0) 40] (emptyTree Qf 2 (ofInt 2))
      = .ok tRoot0M2 ∧
    (CoverTree.insert ratDist selHead tRoot0M2 (ofInt 1) 40).map
      (fun t => t.store.length) = .ok 2 ∧
    insertVisits ratDist tRoot0M2 (ofInt 1) 40 = 4 ∧
    (tRoot0M2.maxlevel - tRoot0M2.minlevel + 1).toNat = 1 ∧
    (tRoot0M2.maxlevel - tRoot0M2.minlevel + 1).toNat
      < insertVisits ratDist tRoot0M2 (ofInt 1) 40 := by
  refine ⟨by decide, by decide, by decide, by decide, by decide⟩

/-- The `find_rec` recursion starting at level `i` visits at most
`i - minlevel + 2` levels (every call below `minlevel - 1` returns or
fails immediately). -/
theorem findRecVisits_le [Inhabited α] (dist : α → α → Qf)
    (t : CoverTree α) (p : α) :
    ∀ (fuel : Nat) (Qi : List Nat) (ds : List Qf) (i : Int),
      t.minlevel - 1 ≤ i →
      findRecVisits dist t p Qi ds i fuel ≤ (i - t.minlevel + 2).toNat := by
  intro fuel
  induction fuel with
  | zero =>
    intro Qi ds i hi
    simp [findRecVisits]
  | succ fuel ih =>
    intro Qi ds i hi
    simp only [findRecVisits]
    rcases hm : pyMin ds with _ | d
    · simp only [hm]
      omega
    · simp only [hm]
      by_cases hlt : i < t.minlevel
      · rw [if_pos hlt]
        omega
      · rw [if_neg hlt]
        by_cases hz : isZero d = true
        · rw [if_pos hz]
          omega
        · rw [if_neg hz]
          have h2 : (i - t.minlevel + 2).toNat
              = (i - 1 - t.minlevel + 2).toNat + 1 := by omega
          rw [h2, Nat.add_comm 1]
          exact Nat.add_le_add_right (ih _ _ (i - 1) (by omega)) 1

/-- C8 as amended: `knn` visits exactly `maxlevel - minlevel + 1` levels
(its loop runs over precisely that list of levels), and `find` visits
at most `maxlevel - minlevel + 2`; the insertion descents are not
bounded by the level range (see the counterexample). -/
theorem c8_level_bounds [Inhabited α] (dist : α → α → Qf)
    (t : CoverTree α) (p : α) (fuel : Nat) (h : t.minlevel ≤ t.maxlevel) :
    (levelsDesc t.minlevel t.maxlevel).length
      = (t.maxlevel - t.minlevel + 1).toNat ∧
    findVisits dist t p fuel ≤ (t.maxlevel - t.minlevel + 2).toNat := by
  constructor
  · rw [levelsDesc, List.length_map, List.length_range]
    omega
  · unfold findVisits
    rcases hr : t.root with _ | r
    · simp only [hr]
      omega
    · simp only [hr]
      exact findRecVisits_le dist t p fuel [r] [dist p (dataAt t r)]
        t.maxlevel (by omega)

/-- Witness for C8's amended statement on the scenario tree. -/
theorem c8_level_bounds_witness :
    (levelsDesc t012.minlevel t012.maxlevel).length
      = (t012.maxlevel - t012.minlevel + 1).toNat ∧
    findVisits ratDist t012 (ofInt 1) 40
      ≤ (t012.maxlevel - t012.minlevel + 2).toNat :=
  c8_level_bounds ratDist t012 (ofInt 1) 40 (by decide)

/-- The `knn_iter` descent keeps its two parallel lists the same
length. -/
theorem knnDescent_lengths [Inhabited α] (dist : α → α → Qf)
    (t : CoverTree α) (p : α) (k : Nat) {Qi : List Nat} {ds : List Qf}
    (hd : knnDescent dist t p k = .ok (Qi, ds)) : ds.length = Qi.length := by
  unfold knnDescent at hd
  rcases hr : t.root with _ | r
  · simp only [hr] at hd
    simp at hd
  · simp only [hr] at hd
    have hstep : ∀ (L : List Int) (acc : Except PyErr (List Nat × List Qf)),
        (∀ Qi0 ds0, acc = .ok (Qi0, ds0) → ds0.length = Qi0.length) →
        ∀ Qi0 ds0, L.foldl (knnStep dist t p k) acc = .ok (Qi0, ds0) →
          ds0.length = Qi0.length := by
      intro L
      induction L with
      | nil =>
        intro acc hacc Qi0 ds0 h
        simp only [List.foldl_nil] at h
        exact hacc Qi0 ds0 h
      | cons i rest ih =>
        intro acc hacc Qi0 ds0 h
        simp only [List.foldl_cons] at h
        apply ih (knnStep dist t p k acc i) _ Qi0 ds0 h
        intro Qi1 ds1 hstep1
        unfold knnStep at hstep1
        rcases acc with e | ⟨Qi2, ds2⟩
        · simp at hstep1
        · simp only at hstep1
          rcases hns : (nsmallestD k
              (getChildrenDist dist t p Qi2 ds2 i).2).getLast? with _ | dk
          · simp only [hns] at hstep1
            simp at hstep1
          · simp only [hns] at hstep1
            simp only [Except.ok.injEq, Prod.mk.injEq] at hstep1
            obtain ⟨h1, h2⟩ := hstep1
            rw [← h1, ← h2]
            simp [List.length_map]
    apply hstep (levelsDesc t.minlevel t.maxlevel)
      (.ok ([r], [dist p (dataAt t r)])) _ Qi ds hd
    intro Qi0 ds0 hh
    simp only [Except.ok.injEq, Prod.mk.injEq] at hh
    obtain ⟨h1, h2⟩ := hh
    rw [← h1, ← h2]
    rfl

/-- Counterexample for C9: with `k = 5 >` the 3 stored points,
`knn(2, 5)` on the tree `{0, 1, 2}` does not fail, but it returns only
`[1, 0]` — not every stored point: node 2 is unreachable by the
descent. -/
theorem c9_counterexample :
    knn ratDist t012 (ofInt 2) 5 = .ok [ofInt 1, ofInt 0] ∧
    storedPoints t012 = [ofInt 0, ofInt 1, ofInt 2] ∧
    (storedPoints t012).length < 5 ∧
    ofInt 2 ∉ [ofInt 1, ofInt 0] := by
  refine ⟨by decide, by decide, by decide, by decide⟩

/-- C9 as amended: whenever `k` is at least the number of candidates
remaining after the descent, `knn(p, k)` does not fail and returns the
points of exactly those candidates, in ascending order of distance to
`p` (the sorted candidate list is a permutation of the final cover
set).  Since the final cover set can omit stored points the descent
never reaches, `k >` number of stored points does not guarantee every
stored point is returned. -/
theorem c9_knn_returns_all_candidates [Inhabited α] (dist : α → α → Qf)
    (t : CoverTree α) (p : α) (k : Nat) (Qi : List Nat) (ds : List Qf)
    (hd : knnDescent dist t p k = .ok (Qi, ds)) (hk : Qi.length ≤ k) :
    knn dist t p k
      = .ok ((ssort (fun a b => qle a.2 b.2) (Qi.zip ds)).map
          (fun qd => dataAt t qd.1)) ∧
    (ssort (fun a b => qle a.2 b.2) (Qi.zip ds)).Perm (Qi.zip ds) ∧
    ((ssort (fun a b => qle a.2 b.2) (Qi.zip ds)).map
        (fun qd => qd.2)).Pairwise (fun a b => qle a b = true) := by
  have hlen := knnDescent_lengths dist t p k hd
  have hslen : (ssort (fun a b : Nat × Qf => qle a.2 b.2)
      (Qi.zip ds)).length ≤ k := by
    rw [ssort_length, List.length_zip]
    omega
  refine ⟨?_, ssort_perm _ _, ?_⟩
  · unfold knn
    rw [hd]
    simp only [Except.map]
    unfold args_min nsmallestPairs
    rw [List.take_of_length_le hslen]
  · have hp := ssort_pairwise (fun a b : Nat × Qf => qle a.2 b.2)
      (fun a b c hab hbc => qle_trans hab hbc)
      (fun a b => qle_total a.2 b.2) (Qi.zip ds)
    exact List.pairwise_map.mpr hp

/-- Witness for C9's amended statement: `knn(2, 5)` on the scenario
tree (2 final candidates, 3 stored points). -/
theorem c9_knn_returns_all_candidates_witness :
    knn ratDist t012 (ofInt 2) 5
      = .ok ((ssort (fun a b => qle a.2 b.2)
          ([0, 1].zip [ofInt 2, ofInt 1])).map
            (fun qd => dataAt t012 qd.1)) ∧
    (ssort (fun a b => qle a.2 b.2)
        ([0, 1].zip [ofInt 2, ofInt 1])).Perm
      ([0, 1].zip [ofInt 2, ofInt 1]) ∧
    ((ssort (fun a b => qle a.2 b.2)
        ([0, 1].zip [ofInt 2, ofInt 1])).map
          (fun qd => qd.2)).Pairwise (fun a b => qle a b = true) :=
  c9_knn_returns_all_candidates ratDist t012 (ofInt 2) 5 [0, 1]
    [ofInt 2, ofInt 1] (by decide) (by decide)

theorem mem_zip_right_of_mem {l1 : List Nat} {l2 : List Qf} {z : Qf}
    (h : l2.length = l1.length) (hz : z ∈ l2) :
    ∃ x, (x, z) ∈ l1.zip l2 := by
  induction l2 generalizing l1 with
  | nil => simp at hz
  | cons b bs ih =>
    cases l1 with
    | nil => simp at h
    | cons a as =>
      rcases List.mem_cons.mp hz with h1 | h1
      · refine ⟨a, ?_⟩
        rw [h1]
        exact List.mem_cons_self _ _
      · have hlen : bs.length = as.length := by
          simp only [List.length_cons] at h
          omega
        obtain ⟨x, hx⟩ := ih hlen h1
        exact ⟨x, List.mem_cons_of_mem _ hx⟩

/-- When the cover set holds a zero-distance candidate (a point equal
to `p` reachable by the descent) and `k = 1`, the `knn_insert_iter`
loop never records a parent (`d_p_Q_l = 0` is never `> base ** i`) and
therefore never exits: it exhausts any amount of fuel.  In Python this
is an infinite loop. -/
theorem knnInsertLoop_dup_no_exit [Inhabited α] (dist : α → α → Qf)
    (sel : List Nat → Option Nat) (t : CoverTree α) (p : α)
    (hd : ∀ a b, Nonneg (dist a b)) (hb : Pos t.base) :
    ∀ (fuel : Nat) (Qi : List Nat) (ds : List Qf) (i : Int),
      ds.length = Qi.length →
      (∃ z ∈ ds, isZero z = true) →
      (∀ d ∈ ds, Nonneg d) →
      knnInsertLoop dist sel t p 1 Qi ds i none fuel = .error .fuelOut := by
  intro fuel
  induction fuel with
  | zero =>
    intro Qi ds i _ _ _
    rfl
  | succ fuel ih =>
    intro Qi ds i hlen hex hnn
    obtain ⟨z, hz, hz0⟩ := hex
    simp only [knnInsertLoop]
    have hQlenEq : (getChildrenDist dist t p Qi ds i).2.length
        = (getChildrenDist dist t p Qi ds i).1.length := by
      simp only [getChildrenDist, List.length_append, List.length_map,
        hlen]
    have hzQ : z ∈ (getChildrenDist dist t p Qi ds i).2 := by
      simp only [getChildrenDist]
      exact List.mem_append_left _ hz
    have hnnQ : ∀ d ∈ (getChildrenDist dist t p Qi ds i).2, Nonneg d := by
      intro d hdm
      simp only [getChildrenDist] at hdm
      rcases List.mem_append.mp hdm with h | h
      · exact hnn d h
      · rcases List.mem_map.mp h with ⟨q, hq, he⟩
        rw [← he]
        exact hd p _
    obtain ⟨d0, rest, hsort⟩ : ∃ d0 rest,
        ssort qle (getChildrenDist dist t p Qi ds i).2 = d0 :: rest := by
      rcases hs : ssort qle (getChildrenDist dist t p Qi ds i).2
          with _ | ⟨d0, rest⟩
      · have hperm := ssort_perm qle (getChildrenDist dist t p Qi ds i).2
        rw [hs] at hperm
        rw [hperm.symm.eq_nil] at hzQ
        simp at hzQ
      · exact ⟨d0, rest, rfl⟩
    have hns : nsmallestD 1 (getChildrenDist dist t p Qi ds i).2
        = [d0] := by
      unfold nsmallestD
      rw [hsort]
      rfl
    simp only [hns]
    have hd0mem : d0 ∈ (getChildrenDist dist t p Qi ds i).2 :=
      (ssort_perm qle _).subset
        (by rw [hsort]; exact List.mem_cons_self _ _)
    have hd0nn : Nonneg d0 := hnnQ d0 hd0mem
    have hd0z : isZero d0 = true := by
      have hzst : z ∈ d0 :: rest := by
        rw [← hsort]
        exact ((ssort_perm qle _).mem_iff).mpr hzQ
      rcases List.mem_cons.mp hzst with h | h
      · rw [← h]
        exact hz0
      · have hpair := ssort_pairwise qle
          (fun a b c hab hbc => qle_trans hab hbc) qle_total
          (getChildrenDist dist t p Qi ds i).2
        rw [hsort] at hpair
        have hle := (List.pairwise_cons.mp hpair).1 z h
        exact isZero_of_qle_zero hz0 hd0nn hle
    have hq0 : qlt (qpow t.base i) d0 = false :=
      not_qlt_pos_zero (pos_qpow hb i) hd0z
    rw [if_neg (by rw [hq0]; exact Bool.false_ne_true)]
    apply ih
    · simp [List.length_map]
    · obtain ⟨x, hxz⟩ := mem_zip_right_of_mem hQlenEq hzQ
      refine ⟨z, ?_, hz0⟩
      apply List.mem_map.mpr
      refine ⟨(x, z), ?_, rfl⟩
      apply List.mem_filter.mpr
      refine ⟨hxz, ?_⟩
      exact qle_zero_qadd hz0 hd0nn (pos_qpow hb i)
    · intro d hdm
      rcases List.mem_map.mp hdm with ⟨⟨a, b⟩, hab, he⟩
      rw [← he]
      exact hnnQ b (List.of_mem_zip (List.mem_filter.mp hab).1).2

/-- C3 (code bug): duplicates are not no-ops.  `insert(2)` into the
tree `{0, 1, 2}` terminates without error but mutates the tree: the
existing zero-distance node 2 is unreachable by the descent, so a
second node with payload 2 is attached (3 nodes become 4).  And
`knn_insert(0, 1)` on the tree whose root is the point 0 never
terminates: the zero distance keeps `d_p_Q_l > base ** i` false
forever, so `found_parent` is never set (modelled: every fuel amount
is exhausted). -/
theorem c3_duplicate_not_noop :
    isZero (ratDist (ofInt 2) (ofInt 2)) = true ∧
    ofInt 2 ∈ storedPoints t012 ∧
    t012.store.length = 3 ∧
    (CoverTree.insert ratDist selHead t012 (ofInt 2) 40).map
      (fun t => t.store.length) = .ok 4 ∧
    (∀ fuel, knn_insert ratDist selHead tRoot0 (ofInt 0) 1 fuel
      = .error .fuelOut) := by
  refine ⟨by decide, by decide, by decide, by decide, ?_⟩
  intro fuel
  exact knnInsertLoop_dup_no_exit ratDist selHead tRoot0 (ofInt 0)
    (fun a b => nonneg_qabs a b) (by simp only [Qf.Pos]; decide) fuel
    [0] [ratDist (ofInt 0) (dataAt tRoot0 0)] 5 rfl
    ⟨ratDist (ofInt 0) (dataAt tRoot0 0), List.mem_cons_self _ _,
      by decide⟩
    (fun d hdm => by
      rw [List.mem_singleton] at hdm
      rw [hdm]
      exact nonneg_qabs _ _)
